import Mathlib

/-!
Shallow embedding of the chunked-upload and range-streaming core of
`backend/app/services/telegram_service.py` and
`backend/app/routers/telegram_router.py`.

File bytes are modelled as natural numbers, the target chat as a growing
list of message payloads (`TStore`), and the transport calls
(`send_document`, `get_messages`, `stream_media`) as operations on that
list: `send_document` appends a payload and returns its message id,
`stream_media` produces the stored payload from the requested offset.
A fallible `send_document` call is modelled by an oracle
`fail : Nat -> Option eps` giving, for each sequential send (indexed by
the chunk index of the loop in `upload_large_file`), the error that the
call raises, or `none` when the call succeeds.
-/

namespace Platsv

/-- A byte of file content (opaque to the code; modelled as `Nat`). -/
abbrev Byte := Nat

/-- The messages of the target chat: the message id of the `i`-th sent
document is `i`, its payload is `msgs[i]`. -/
structure TStore where
  msgs : List (List Byte)
deriving DecidableEq

/-- One entry of the `chunks_metadata` list built by `upload_large_file`
(equally, one row of `TelegramFileChunk` as the router rebuilds it):
fields `chunk_index`, `message_id`, `file_id`, `size`.  `file_id` is
stored but never used by the read path, so it is kept opaque (`none`). -/
structure ChunkMeta where
  chunk_index : Nat
  message_id : Nat
  file_id : Option Nat
  size : Nat
deriving DecidableEq

/-- The `file_data` dictionary handed to `stream_file_content` by the
router (lines 238-250 of `telegram_router.py`): `is_split`, the optional
single-file `message_id`, and the chunk list (empty when not split). -/
structure FileData where
  is_split : Bool
  message_id : Option Nat
  chunks : List ChunkMeta
deriving DecidableEq

/-- The chunk cap of `upload_large_file`:
`CHUNK_SIZE = 2000 * 1024 * 1024`. -/
def CHUNK_SIZE : Nat := 2000 * 1024 * 1024

/-- Model of `app.send_document`: appends the payload to the chat and returns the
new message id (ids are assigned consecutively). -/
def sendDocument (st : TStore) (payload : List Byte) : TStore × Nat :=
  (⟨st.msgs ++ [payload]⟩, st.msgs.length)

/-- Model of `app.get_messages`: the payload stored under a message id, when the
message exists and carries media. -/
def getMessage (st : TStore) (mid : Nat) : Option (List Byte) :=
  st.msgs[mid]?

/-- The slices of the source file cut by the splitting loop of
`upload_large_file` (lines 282-308): each iteration copies
`min(CHUNK_SIZE, remaining)` bytes into a temp part file.  For a cap of
`0` the source loop would copy nothing and never advance, i.e. it
diverges; the `[l]` value of that branch is a totality guard that no
claim reaches (every claim assumes a positive cap, and the source fixes
the cap to the positive constant `CHUNK_SIZE`). -/
def chunksOf (C : Nat) (l : List Byte) : List (List Byte) :=
  if l = [] then []
  else if C = 0 then [l]
  else l.take C :: chunksOf C (l.drop C)
termination_by l.length
decreasing_by
  simp [List.length_drop]
  rename_i h hC
  have hl : l.length ≠ 0 := fun hn => h (List.eq_nil_of_length_eq_zero hn)
  omega

/-- The `(byte_offset, byte_length)` windows walked by the splitting loop
of `upload_large_file`: `pos` is `f.tell()`, `remaining` is
`file_size - pos`, and each window has length
`limit = min(CHUNK_SIZE, remaining)`.  The `C = 0` branch is the same
divergence guard as in `chunksOf` (the source loop would never
terminate); it is unreachable under the positive-cap hypothesis of every
claim. -/
def planWindows (C total pos : Nat) : List (Nat × Nat) :=
  if total ≤ pos then []
  else if C = 0 then [(pos, 0)]
  else (pos, min C (total - pos)) :: planWindows C total (pos + min C (total - pos))
termination_by total - pos
decreasing_by
  rename_i h hC
  rw [Nat.min_def]
  split <;> omega

/-- The chunk plan of an upload of `total` bytes under cap `C`: the
windows of the splitting loop, starting at file position `0`. -/
def plan (total C : Nat) : List (Nat × Nat) :=
  planWindows C total 0

/-- The `chunks_metadata` records that the splitting loop of
`upload_large_file` accumulates for the given chunk payloads when the
first chunk gets index `i` and message id `base` (sends are sequential,
so ids grow in step with indices). -/
def metasOf (i base : Nat) : List (List Byte) → List ChunkMeta
  | [] => []
  | c :: rest => ⟨i, base, none, c.length⟩ :: metasOf (i + 1) (base + 1) rest

/-- The split-file loop of `upload_large_file` (lines 282-337): sends the
chunk payloads in order, consulting the failure oracle per chunk index;
an exception from `send_document` propagates (the `finally` block only
removes the temp file), with the messages already sent left in the chat. -/
def uploadSplitGo {ε : Type} (fail : Nat → Option ε) :
    TStore → Nat → List (List Byte) → TStore × Except ε (List ChunkMeta)
  | st, _, [] => (st, .ok [])
  | st, i, c :: rest =>
    match fail i with
    | some e => (st, .error e)
    | none =>
      let r := sendDocument st c
      match uploadSplitGo fail r.1 (i + 1) rest with
      | (st2, .error e) => (st2, .error e)
      | (st2, .ok ms) => (st2, .ok (⟨i, r.2, none, c.length⟩ :: ms))

/-- Model of `upload_large_file` (lines 239-343), with the cap as a parameter
(the source fixes it to `CHUNK_SIZE`): a file of at most `C` bytes is
sent as one document and described by an unsplit `FileData`; a larger
file is cut by the splitting loop and described by a split `FileData`
carrying the accumulated chunk records.  The returned store is the chat
after all sends that happened, also when the upload failed. -/
def uploadLargeFile {ε : Type} (fail : Nat → Option ε) (C : Nat)
    (data : List Byte) (st : TStore) : TStore × Except ε FileData :=
  if data.length ≤ C then
    match fail 0 with
    | some e => (st, .error e)
    | none =>
      let r := sendDocument st data
      (r.1, .ok ⟨false, some r.2, []⟩)
  else
    match uploadSplitGo fail st 0 (chunksOf C data) with
    | (st2, .error e) => (st2, .error e)
    | (st2, .ok ms) => (st2, .ok ⟨true, none, ms⟩)

/-- The oracle of an upload in which every `send_document` call succeeds. -/
def noFail : Nat → Option Unit := fun _ => none

/-- The failure oracle of an upload whose `k`-th `send_document` call
raises (all earlier calls succeed). -/
def failAt (k : Nat) : Nat → Option Unit := fun i =>
  if i = k then some () else none

/-- The `process_uploads` background task of the router (lines 113-168)
for one media file, restricted to its published state: on success the
manifest row (`TelegramFile` plus its `TelegramFileChunk` rows, i.e. the
`FileData`) is committed to the database; on an exception nothing is
committed (the error is logged and the loop moves on). -/
def processUpload {ε : Type} (fail : Nat → Option ε) (C : Nat)
    (db : List FileData) (data : List Byte) (st : TStore) :
    List FileData × TStore :=
  match uploadLargeFile fail C data st with
  | (st2, .ok fd) => (db ++ [fd], st2)
  | (st2, .error _) => (db, st2)

/-- The offset-resolution loop of `stream_file_content` (lines 204-214):
walks the sorted chunk list accumulating sizes; on the first chunk whose
window contains the offset it stops with that chunk's position and the
intra-chunk offset.  When no chunk contains the offset the initial
values `(0, 0)` survive, exactly as in the source. -/
def resolveOffsetGo (off : Nat) : Nat → Nat → List Nat → Nat × Nat
  | _, _, [] => (0, 0)
  | i, cur, s :: rest =>
    if off < cur + s then (i, off - cur)
    else resolveOffsetGo off (i + 1) (cur + s) rest

/-- Offset resolution over the chunk sizes, starting from position `0`
and cumulative offset `0`. -/
def resolveOffset (sizes : List Nat) (off : Nat) : Nat × Nat :=
  resolveOffsetGo off 0 0 sizes

/-- The chunk-streaming loop of `stream_file_content` (lines 217-232):
streams each remaining chunk from `blob_offset`; a chunk whose message is
missing is skipped with `continue` (which, as in the source, does NOT
reset `blob_offset`); after a successfully streamed chunk the relative
offset becomes `0`. -/
def streamChunks (st : TStore) : List ChunkMeta → Nat → List (List Byte)
  | [], _ => []
  | c :: rest, blobOff =>
    match getMessage st c.message_id with
    | none => streamChunks st rest blobOff
    | some payload => payload.drop blobOff :: streamChunks st rest 0

/-- Model of `sorted(file_data.get("chunks", []), key=lambda x: x["chunk_index"])`:
a stable sort by `chunk_index`. -/
def sortChunks (cs : List ChunkMeta) : List ChunkMeta :=
  List.insertionSort (fun a b => a.chunk_index ≤ b.chunk_index) cs

/-- The single-file branch of `stream_file_content` (lines 185-196): a
missing `message_id` or a missing/mediless message raises, and the
trailing handler of the generator yields `b""`; otherwise `stream_media`
yields the payload from the requested offset. -/
def streamSingle (st : TStore) (mo : Option Nat) (off : Nat) :
    List (List Byte) :=
  match mo with
  | none => [[]]
  | some mid =>
    match getMessage st mid with
    | none => [[]]
    | some payload => [payload.drop off]

/-- The split branch of `stream_file_content` (lines 197-232) applied to
the sorted chunk list: an empty chunk list raises (handler yields `b""`);
otherwise the offset is resolved to `(start_chunk_index, blob_offset)`
and the remaining chunks are streamed from there. -/
def streamSplitChunks (st : TStore) (chunks : List ChunkMeta) (off : Nat) :
    List (List Byte) :=
  if chunks = [] then [[]]
  else
    streamChunks st
      (chunks.drop (resolveOffset (chunks.map (fun c => c.size)) off).1)
      (resolveOffset (chunks.map (fun c => c.size)) off).2

/-- Model of `stream_file_content` (lines 169-236).  The generator's buffers are
collected into a list.  An exception raised inside the generator body is
caught by the trailing handler, which yields `b""` — hence the `[[]]`
results of the two branches: missing `message_id`, missing single-file
message, and empty chunk list all end the stream with one empty buffer
instead of an error. -/
def streamFileContent (st : TStore) (fd : FileData) (off : Nat) :
    List (List Byte) :=
  if fd.is_split then streamSplitChunks st (sortChunks fd.chunks) off
  else streamSingle st fd.message_id off

/-- Python's slice `l[:k]` for an `int` bound `k`: a negative bound
counts from the end of the list. -/
def pySliceTo (l : List Byte) (k : Int) : List Byte :=
  if k < 0 then l.take (l.length - (-k).toNat) else l.take k.toNat

/-- The body of `range_stream_generator` (router lines 253-263):
`bytes_sent` starts at `sent`; a buffer that would overshoot
`content_length` is truncated by the Python slice and ends the stream;
otherwise the buffer is passed on and the stream ends once
`bytes_sent >= content_length`. -/
def rangeGo (contentLength : Int) : Nat → List (List Byte) → List (List Byte)
  | _, [] => []
  | sent, b :: rest =>
    if contentLength < (sent : Int) + b.length then
      [pySliceTo b (contentLength - (sent : Int))]
    else if contentLength ≤ (sent : Int) + b.length then
      [b]
    else
      b :: rangeGo contentLength (sent + b.length) rest

/-- Model of `range_stream_generator` over the buffers of the underlying stream,
with `bytes_sent = 0` initially. -/
def rangeStreamGen (contentLength : Int) (bufs : List (List Byte)) :
    List (List Byte) :=
  rangeGo contentLength 0 bufs

/-- The range handling of `stream_telegram_media` (router lines 212-263)
after header parsing, for a request that supplies both bounds (the parse
of `bytes=a-b` splits on `-`, so both parsed bounds are non-negative):
only `start >= file_size` is rejected (HTTP 416, no body); otherwise the
response streams `range_stream_generator` with
`content_length = end - start + 1` over `stream_file_content` opened at
`start`. -/
def streamTelegramMedia (st : TStore) (fd : FileData)
    (fileSize start fin : Nat) : Except Unit (List (List Byte)) :=
  if fileSize ≤ start then .error ()
  else .ok (rangeStreamGen ((fin : Int) - (start : Int) + 1)
      (streamFileContent st fd start))

/-! ### Properties of the splitting loop -/

/-- The splitting loop produces nothing from an empty source. -/
theorem chunksOf_nil (C : Nat) : chunksOf C [] = [] := by
  rw [chunksOf]
  simp

/-- One unfolding of the splitting loop on a nonempty source under a
positive cap. -/
theorem chunksOf_cons (C : Nat) (l : List Byte) (hC : C ≠ 0) (hl : l ≠ []) :
    chunksOf C l = l.take C :: chunksOf C (l.drop C) := by
  rw [chunksOf]
  simp [hl, hC]

/-- Concatenating the chunk slices recovers the source file. -/
theorem chunksOf_flatten (C : Nat) (hC : 0 < C) (l : List Byte) :
    (chunksOf C l).flatten = l := by
  rw [chunksOf]
  split
  · next h => simp [h]
  · next h =>
    split
    · next h0 => exact absurd h0 (Nat.pos_iff_ne_zero.mp hC)
    · next h0 =>
      have ih := chunksOf_flatten C hC (l.drop C)
      simp [ih]
termination_by l.length
decreasing_by
  simp [List.length_drop]
  rename_i h hC'
  have hl : l.length ≠ 0 := fun hn => h (List.eq_nil_of_length_eq_zero hn)
  omega

/-- Every chunk slice is nonempty (under a positive cap). -/
theorem chunksOf_ne_nil (C : Nat) (hC : 0 < C) (l : List Byte) :
    ∀ c ∈ chunksOf C l, c ≠ [] := by
  intro c hc
  rw [chunksOf] at hc
  split at hc
  · simp at hc
  · next h =>
    split at hc
    · next h0 => exact absurd h0 (Nat.pos_iff_ne_zero.mp hC)
    · next h0 =>
      rcases List.mem_cons.mp hc with h1 | h1
      · subst h1
        simp [List.take_eq_nil_iff]
        exact ⟨fun hn => absurd hn h0, fun hn => absurd hn h⟩
      · exact chunksOf_ne_nil C hC (l.drop C) c h1
termination_by l.length
decreasing_by
  simp [List.length_drop]
  rename_i hc h hC'
  have hl : l.length ≠ 0 := fun hn => h (List.eq_nil_of_length_eq_zero hn)
  omega

/-- Every chunk slice is at most the cap long. -/
theorem chunksOf_length_le (C : Nat) (hC : 0 < C) (l : List Byte) :
    ∀ c ∈ chunksOf C l, c.length ≤ C := by
  intro c hc
  rw [chunksOf] at hc
  split at hc
  · simp at hc
  · next h =>
    split at hc
    · next h0 => exact absurd h0 (Nat.pos_iff_ne_zero.mp hC)
    · next h0 =>
      rcases List.mem_cons.mp hc with h1 | h1
      · subst h1
        simp [List.length_take]
      · exact chunksOf_length_le C hC (l.drop C) c h1
termination_by l.length
decreasing_by
  simp [List.length_drop]
  rename_i hc h hC'
  have hl : l.length ≠ 0 := fun hn => h (List.eq_nil_of_length_eq_zero hn)
  omega

/-! ### Properties of the window plan -/

/-- No windows remain once the file position has reached the size. -/
theorem planWindows_stop (C total pos : Nat) (h : total ≤ pos) :
    planWindows C total pos = [] := by
  rw [planWindows]
  simp [h]

/-- One unfolding of the window loop while bytes remain. -/
theorem planWindows_step (C total pos : Nat) (hC : C ≠ 0) (h : pos < total) :
    planWindows C total pos =
      (pos, min C (total - pos)) ::
        planWindows C total (pos + min C (total - pos)) := by
  rw [planWindows]
  simp [Nat.not_le.mpr h, hC]

/-- The window list is empty exactly when no bytes remain. -/
theorem planWindows_eq_nil_iff (C total pos : Nat) :
    planWindows C total pos = [] ↔ total ≤ pos := by
  constructor
  · intro h
    by_contra hlt
    rw [planWindows] at h
    simp [hlt] at h
    split at h <;> simp_all
  · exact planWindows_stop C total pos

/-- The window lengths sum to the remaining byte count. -/
theorem planWindows_sum (C : Nat) (hC : 0 < C) (total pos : Nat) :
    ((planWindows C total pos).map Prod.snd).sum = total - pos := by
  rw [planWindows]
  split
  · next h => simp; omega
  · next h =>
    split
    · next h0 => exact absurd h0 (Nat.pos_iff_ne_zero.mp hC)
    · next h0 =>
      have ih := planWindows_sum C hC total (pos + min C (total - pos))
      simp [ih]
      rw [Nat.min_def]
      split <;> omega
termination_by total - pos
decreasing_by
  rename_i h hC'
  rw [Nat.min_def]
  split <;> omega

/-- The first remaining window starts at the current file position. -/
theorem planWindows_head (C total pos : Nat) (w : Nat × Nat)
    (rest : List (Nat × Nat)) (h : planWindows C total pos = w :: rest) :
    w.1 = pos := by
  rw [planWindows] at h
  split at h
  · simp at h
  · split at h <;> (injection h with h1 h2; subst h1; rfl)

/-- Successive windows are contiguous: each starts where the previous one
ends. -/
theorem planWindows_chain (C total pos : Nat) :
    List.Chain' (fun a b => b.1 = a.1 + a.2) (planWindows C total pos) := by
  rw [planWindows]
  split
  · simp
  · next h =>
    split
    · simp
    · next h0 =>
      rw [List.chain'_cons']
      refine ⟨?_, planWindows_chain C total (pos + min C (total - pos))⟩
      intro y hy
      rcases hr : planWindows C total (pos + min C (total - pos)) with _ | ⟨w, rest⟩
      · rw [hr] at hy
        simp at hy
      · rw [hr] at hy
        simp at hy
        subst hy
        exact planWindows_head C total _ w rest hr
termination_by total - pos
decreasing_by
  rename_i h hC'
  rw [Nat.min_def]
  split <;> omega

/-- Every window length is at most the cap. -/
theorem planWindows_snd_le (C total pos : Nat) :
    ∀ w ∈ planWindows C total pos, w.2 ≤ C := by
  intro w hw
  rw [planWindows] at hw
  split at hw
  · simp at hw
  · next h =>
    split at hw
    · next h0 =>
      simp at hw
      subst h0
      simp [hw]
    · next h0 =>
      rcases List.mem_cons.mp hw with h1 | h1
      · subst h1
        simp
      · exact planWindows_snd_le C total (pos + min C (total - pos)) w h1
termination_by total - pos
decreasing_by
  rename_i hw h hC'
  rw [Nat.min_def]
  split <;> omega

/-- The loop emits `ceil(remaining / C)` windows. -/
theorem planWindows_length (C : Nat) (hC : 0 < C) (total pos : Nat) :
    (planWindows C total pos).length = (total - pos + C - 1) / C := by
  rw [planWindows]
  split
  · next h =>
    have h1 : total - pos = 0 := by omega
    have h2 : (total - pos + C - 1) / C = 0 := by
      rw [h1]
      exact Nat.div_eq_of_lt (by omega)
    simp [h2]
  · next h =>
    split
    · next h0 => exact absurd h0 (Nat.pos_iff_ne_zero.mp hC)
    · next h0 =>
      have ih := planWindows_length C hC total (pos + min C (total - pos))
      simp [ih]
      rw [Nat.min_def]
      split
      · next hle =>
        have e1 : total - (pos + C) + C - 1 = total - pos - 1 := by omega
        have e2 : total - pos + C - 1 = (total - pos - 1) + C := by omega
        rw [e1, e2, Nat.add_div_right _ hC]
      · next hgt =>
        have e1 : total - (pos + (total - pos)) + C - 1 = C - 1 := by omega
        have e2 : (C - 1) / C = 0 := Nat.div_eq_of_lt (by omega)
        have e3 : (total - pos + C - 1) / C = 1 :=
          Nat.div_eq_of_lt_le (by omega) (by omega)
        rw [e1]
        omega
termination_by total - pos
decreasing_by
  rename_i h hC'
  rw [Nat.min_def]
  split <;> omega

/-- Every window except possibly the last is a full-cap window. -/
theorem planWindows_dropLast (C : Nat) (hC : 0 < C) (total pos : Nat) :
    ∀ w ∈ (planWindows C total pos).dropLast, w.2 = C := by
  intro w hw
  rw [planWindows] at hw
  split at hw
  · simp at hw
  · next h =>
    split at hw
    · next h0 => exact absurd h0 (Nat.pos_iff_ne_zero.mp hC)
    · next h0 =>
      rcases hr : planWindows C total (pos + min C (total - pos)) with _ | ⟨v, rest⟩
      · rw [hr] at hw
        simp at hw
      · rw [hr, List.dropLast_cons_of_ne_nil (by simp)] at hw
        rcases List.mem_cons.mp hw with h1 | h1
        · subst h1
          -- the tail is nonempty, so more than C bytes remained
          have h2 : ¬ total ≤ pos + min C (total - pos) := by
            intro hstop
            rw [planWindows_stop C total _ hstop] at hr
            simp at hr
          have hmin : min C (total - pos) = C := by
            rcases Nat.le_total C (total - pos) with hh | hh
            · exact Nat.min_eq_left hh
            · rw [Nat.min_eq_right hh] at h2
              omega
          simp [hmin]
        · rw [← hr] at h1
          exact planWindows_dropLast C hC total (pos + min C (total - pos)) w h1
termination_by total - pos
decreasing_by
  rename_i hw h hC'
  rw [Nat.min_def]
  split <;> omega

/-- The final window holds the remainder: `remaining mod C` bytes, or a
full cap when the remainder is exactly `0`. -/
theorem planWindows_last (C : Nat) (hC : 0 < C) (total pos : Nat)
    (h : pos < total) :
    ((planWindows C total pos).getLast?).map Prod.snd =
      some (if (total - pos) % C = 0 then C else (total - pos) % C) := by
  rw [planWindows_step C total pos (Nat.pos_iff_ne_zero.mp hC) h]
  rcases hr : planWindows C total (pos + min C (total - pos)) with _ | ⟨v, rest⟩
  · -- single window: everything fit, remaining ≤ C
    have h2 : total ≤ pos + min C (total - pos) :=
      (planWindows_eq_nil_iff C total _).mp hr
    have h3 : total - pos ≤ C := by
      rcases Nat.le_total C (total - pos) with hh | hh
      · rw [Nat.min_eq_left hh] at h2
        omega
      · exact hh
    rcases Nat.lt_or_ge (total - pos) C with hlt | hge
    · -- strict remainder: one window of total - pos < C bytes
      have hmin : min C (total - pos) = total - pos := Nat.min_eq_right (by omega)
      have h4 : (total - pos) % C = total - pos := Nat.mod_eq_of_lt hlt
      rw [hmin]
      simp [h4, if_neg (by omega : ¬ (total - pos = 0))]
    · -- exact fit: the single window is a full cap and remainder is 0
      have heq : total - pos = C := by omega
      have hmin : min C (total - pos) = C := Nat.min_eq_left (by omega)
      rw [hmin]
      simp [heq, Nat.mod_self]
  · have h2 : ¬ total ≤ pos + min C (total - pos) := by
      intro hstop
      rw [planWindows_stop C total _ hstop] at hr
      simp at hr
    have hmin : min C (total - pos) = C := by
      rcases Nat.le_total C (total - pos) with hh | hh
      · exact Nat.min_eq_left hh
      · rw [Nat.min_eq_right hh] at h2
        omega
    rw [List.getLast?_cons_cons, ← hr]
    have ih := planWindows_last C hC total (pos + min C (total - pos))
      (by omega)
    rw [ih]
    have h3 : total - (pos + min C (total - pos)) = total - pos - C := by
      rw [hmin]
      omega
    rw [h3]
    have h4 : (total - pos - C) % C = (total - pos) % C := by
      have h5 : total - pos - C + C = total - pos := by
        rw [hmin] at h2
        omega
      conv_rhs => rw [← h5]
      rw [Nat.add_mod_right]
    rw [h4]
termination_by total - pos
decreasing_by
  rw [Nat.min_def]
  split <;> omega

/-- The lengths of the chunk slices are exactly the planned window
lengths (for any starting file position). -/
theorem chunksOf_map_length (C : Nat) (hC : 0 < C) (l : List Byte)
    (pos : Nat) :
    (chunksOf C l).map List.length =
      (planWindows C (pos + l.length) pos).map Prod.snd := by
  rw [chunksOf]
  split
  · next h =>
    subst h
    simp [planWindows_stop]
  · next h =>
    split
    · next h0 => exact absurd h0 (Nat.pos_iff_ne_zero.mp hC)
    · next h0 =>
      have hlen : 0 < l.length := List.length_pos.mpr h
      rw [planWindows_step C _ pos h0 (by omega)]
      have h1 : pos + l.length - pos = l.length := by omega
      simp [h1]
      have ih := chunksOf_map_length C hC (l.drop C) (pos + min C l.length)
      rw [List.length_drop] at ih
      have h2 : pos + min C l.length + (l.length - C) = pos + l.length := by
        rcases Nat.le_total C l.length with hh | hh
        · rw [Nat.min_eq_left hh]
          omega
        · rw [Nat.min_eq_right hh]
          omega
      rw [h2] at ih
      exact ih
termination_by l.length
decreasing_by
  simp [List.length_drop]
  rename_i h hC'
  have hl : l.length ≠ 0 := fun hn => h (List.eq_nil_of_length_eq_zero hn)
  omega

/-! ### Properties of the accumulated chunk records -/

/-- There is one record per chunk payload. -/
theorem metasOf_length (cs : List (List Byte)) :
    ∀ i base, (metasOf i base cs).length = cs.length := by
  induction cs with
  | nil => intro i base; simp [metasOf]
  | cons c rest ih =>
    intro i base
    simp [metasOf, ih]

/-- The `k`-th record: index `i + k`, message id `base + k`, and the
`k`-th payload's length as its size. -/
theorem metasOf_get (cs : List (List Byte)) :
    ∀ i base k, (metasOf i base cs)[k]? =
      cs[k]?.map (fun c => (⟨i + k, base + k, none, c.length⟩ : ChunkMeta)) := by
  induction cs with
  | nil => intro i base k; simp [metasOf]
  | cons c rest ih =>
    intro i base k
    cases k with
    | zero => simp [metasOf]
    | succ k =>
      simp only [metasOf, List.getElem?_cons_succ]
      rw [ih (i + 1) (base + 1) k]
      cases hrk : rest[k]? with
      | none => simp
      | some c2 =>
        simp [ChunkMeta.mk.injEq]
        exact ⟨by omega, by omega⟩

/-- The record sizes are the chunk payload lengths. -/
theorem metasOf_map_size (cs : List (List Byte)) :
    ∀ i base, (metasOf i base cs).map (fun m => m.size) = cs.map List.length := by
  induction cs with
  | nil => intro i base; simp [metasOf]
  | cons c rest ih =>
    intro i base
    simp [metasOf, ih]

/-- Every record index is at least the starting index. -/
theorem metasOf_index_ge (cs : List (List Byte)) :
    ∀ i base m, m ∈ metasOf i base cs → i ≤ m.chunk_index := by
  induction cs with
  | nil => intro i base m hm; simp [metasOf] at hm
  | cons c rest ih =>
    intro i base m hm
    simp [metasOf] at hm
    rcases hm with hm | hm
    · subst hm
      exact Nat.le_refl i
    · have := ih (i + 1) (base + 1) m hm
      omega

/-- The records come out sorted by `chunk_index`. -/
theorem metasOf_sorted (cs : List (List Byte)) :
    ∀ i base,
      List.Sorted (fun a b : ChunkMeta => a.chunk_index ≤ b.chunk_index)
        (metasOf i base cs) := by
  induction cs with
  | nil => intro i base; simp [metasOf]
  | cons c rest ih =>
    intro i base
    rw [metasOf, List.sorted_cons]
    refine ⟨?_, ih (i + 1) (base + 1)⟩
    intro m hm
    have := metasOf_index_ge rest (i + 1) (base + 1) m hm
    show i ≤ m.chunk_index
    omega

/-- Re-sorting the records of an upload is the identity. -/
theorem sortChunks_metasOf (cs : List (List Byte)) (i base : Nat) :
    sortChunks (metasOf i base cs) = metasOf i base cs :=
  List.Sorted.insertionSort_eq (metasOf_sorted cs i base)

/-- Dropping leading records shifts the starting index and message id. -/
theorem metasOf_drop (cs : List (List Byte)) :
    ∀ k i base, (metasOf i base cs).drop k =
      metasOf (i + k) (base + k) (cs.drop k) := by
  induction cs with
  | nil => intro k i base; simp [metasOf]
  | cons c rest ih =>
    intro k i base
    cases k with
    | zero => simp
    | succ k =>
      rw [metasOf, List.drop_succ_cons, List.drop_succ_cons, ih k (i + 1) (base + 1)]
      have e1 : i + 1 + k = i + (k + 1) := by omega
      have e2 : base + 1 + k = base + (k + 1) := by omega
      rw [e1, e2]

/-! ### The upload loop on a fully successful run -/

/-- With no failing send, the split loop appends every chunk payload to
the chat, in order, and returns one record per chunk. -/
theorem uploadSplitGo_ok (cs : List (List Byte)) :
    ∀ (st : TStore) (i : Nat),
      uploadSplitGo noFail st i cs =
        (⟨st.msgs ++ cs⟩, .ok (metasOf i st.msgs.length cs)) := by
  induction cs with
  | nil => intro st i; simp [uploadSplitGo, metasOf]
  | cons c rest ih =>
    intro st i
    simp only [uploadSplitGo, noFail, sendDocument]
    rw [ih ⟨st.msgs ++ [c]⟩ (i + 1)]
    simp [metasOf]

/-- A fully successful upload of a small file: one document, an unsplit
record. -/
theorem uploadLargeFile_ok_small (C : Nat) (data : List Byte) (st : TStore)
    (h : data.length ≤ C) :
    uploadLargeFile noFail C data st =
      (⟨st.msgs ++ [data]⟩, .ok ⟨false, some st.msgs.length, []⟩) := by
  simp [uploadLargeFile, h, noFail, sendDocument]

/-- A fully successful upload of a large file: every chunk payload lands
in the chat and the split record lists them all. -/
theorem uploadLargeFile_ok_split (C : Nat) (data : List Byte) (st : TStore)
    (h : C < data.length) :
    uploadLargeFile noFail C data st =
      (⟨st.msgs ++ chunksOf C data⟩,
        .ok ⟨true, none, metasOf 0 st.msgs.length (chunksOf C data)⟩) := by
  rw [uploadLargeFile, if_neg (by omega), uploadSplitGo_ok]

/-! ### The offset-resolution walk -/

/-- The running prefix sum grows by the `j`-th size from step `j` to step
`j + 1` (with `getD` returning `0` past the end). -/
theorem sum_take_succ_getD (sizes : List Nat) (j : Nat) :
    (sizes.take (j + 1)).sum = (sizes.take j).sum + sizes.getD j 0 := by
  rcases Nat.lt_or_ge j sizes.length with hlt | hge
  · rw [List.take_succ, List.sum_append]
    congr 1
    rw [List.getD_eq_getElem?_getD, List.getElem?_eq_getElem hlt]
    simp
  · rw [List.take_of_length_le hge, List.take_of_length_le (by omega),
      List.getD_eq_default _ _ hge]
    omega

/-- Prefix sums are monotone in the number of summands. -/
theorem sum_take_mono (sizes : List Nat) {j k : Nat} (h : j ≤ k) :
    (sizes.take j).sum ≤ (sizes.take k).sum := by
  induction k with
  | zero =>
    have : j = 0 := by omega
    subst this
    exact Nat.le_refl _
  | succ k ihk =>
    rcases Nat.lt_or_ge j (k + 1) with hlt | hge
    · have h1 := ihk (by omega)
      rw [sum_take_succ_getD]
      omega
    · have : j = k + 1 := by omega
      subst this
      exact Nat.le_refl _

/-- At most one chunk interval `[prefix, prefix + size)` contains a given
offset. -/
theorem resolve_interval_unique (sizes : List Nat) (off j k : Nat)
    (hj1 : (sizes.take j).sum ≤ off)
    (hj2 : off < (sizes.take j).sum + sizes.getD j 0)
    (hk1 : (sizes.take k).sum ≤ off)
    (hk2 : off < (sizes.take k).sum + sizes.getD k 0) : j = k := by
  by_contra hne
  rcases Nat.lt_or_ge j k with hlt | hge
  · have h1 : (sizes.take (j + 1)).sum ≤ (sizes.take k).sum :=
      sum_take_mono sizes hlt
    rw [sum_take_succ_getD] at h1
    omega
  · have hlt2 : k < j := by omega
    have h1 : (sizes.take (k + 1)).sum ≤ (sizes.take j).sum :=
      sum_take_mono sizes hlt2
    rw [sum_take_succ_getD] at h1
    omega

/-- The walk of `stream_file_content` finds the chunk whose interval
contains the offset, and the intra-chunk offset is the distance to that
chunk's start. -/
theorem resolveOffsetGo_spec (off : Nat) (sizes : List Nat) :
    ∀ (i cur : Nat), cur ≤ off → off < cur + sizes.sum →
      ∃ j, j < sizes.length ∧
        resolveOffsetGo off i cur sizes =
          (i + j, off - (cur + (sizes.take j).sum)) ∧
        cur + (sizes.take j).sum ≤ off ∧
        off < cur + (sizes.take j).sum + sizes.getD j 0 := by
  induction sizes with
  | nil =>
    intro i cur h1 h2
    simp at h2
    omega
  | cons s rest ih =>
    intro i cur h1 h2
    by_cases hcase : off < cur + s
    · refine ⟨0, by simp, ?_, by simpa using h1, by simpa using hcase⟩
      simp [resolveOffsetGo, hcase]
    · have h3 : cur + s ≤ off := by omega
      have h4 : off < (cur + s) + rest.sum := by
        simp [List.sum_cons] at h2
        omega
      obtain ⟨j, hj1, hj2, hj3, hj4⟩ := ih (i + 1) (cur + s) h3 h4
      refine ⟨j + 1, by simp [hj1], ?_, ?_, ?_⟩
      · simp only [resolveOffsetGo]
        rw [if_neg hcase, hj2, List.take_succ_cons, List.sum_cons]
        simp only [Prod.ext_iff]
        exact ⟨by omega, by omega⟩
      · rw [List.take_succ_cons, List.sum_cons]
        omega
      · rw [List.take_succ_cons, List.sum_cons, List.getD_cons_succ]
        omega

/-- Resolution over the whole size list, for an in-range offset. -/
theorem resolveOffset_spec (sizes : List Nat) (off : Nat)
    (h : off < sizes.sum) :
    ∃ j, j < sizes.length ∧
      resolveOffset sizes off = (j, off - (sizes.take j).sum) ∧
      (sizes.take j).sum ≤ off ∧
      off < (sizes.take j).sum + sizes.getD j 0 := by
  obtain ⟨j, hj1, hj2, hj3, hj4⟩ :=
    resolveOffsetGo_spec off sizes 0 0 (Nat.zero_le _) (by omega)
  exact ⟨j, hj1, by simpa using hj2, by omega, by omega⟩

/-! ### The read path over an uploaded file -/

/-- Looking up the `j`-th message appended after an existing chat. -/
theorem getMessage_append (msgs cs : List (List Byte)) (j : Nat) :
    getMessage ⟨msgs ++ cs⟩ (msgs.length + j) = cs[j]? := by
  show (msgs ++ cs)[msgs.length + j]? = cs[j]?
  rw [List.getElem?_append_right (by omega)]
  congr 1
  omega

/-- Streaming the records of consecutive present chunks from relative
offset `0` yields exactly the chunk payloads. -/
theorem streamChunks_metasOf_zero (cs : List (List Byte)) :
    ∀ (st : TStore) (base i : Nat),
      (∀ j, j < cs.length → getMessage st (base + j) = cs[j]?) →
      streamChunks st (metasOf i base cs) 0 = cs := by
  induction cs with
  | nil => intro st base i hst; simp [metasOf, streamChunks]
  | cons c rest ih =>
    intro st base i hst
    have h0 : getMessage st base = some c := by
      have h1 := hst 0 (by simp)
      simpa using h1
    simp only [metasOf, streamChunks, h0]
    rw [ih st (base + 1) (i + 1) ?_]
    · simp
    · intro j hj
      have h2 := hst (j + 1) (by simpa using Nat.succ_lt_succ hj)
      have e : base + (j + 1) = base + 1 + j := by omega
      rw [e] at h2
      simpa using h2

/-- Streaming records whose first chunk is read from relative offset `d`:
the first payload loses its first `d` bytes, the rest stream whole. -/
theorem streamChunks_metasOf_cons (c : List Byte) (rest : List (List Byte))
    (st : TStore) (base i d : Nat)
    (hst : ∀ j, j < (c :: rest).length → getMessage st (base + j) = (c :: rest)[j]?) :
    streamChunks st (metasOf i base (c :: rest)) d = c.drop d :: rest := by
  have h0 : getMessage st base = some c := by
    have h1 := hst 0 (by simp)
    simpa using h1
  simp only [metasOf, streamChunks, h0]
  rw [streamChunks_metasOf_zero rest st (base + 1) (i + 1) ?_]
  intro j hj
  have h2 := hst (j + 1) (by simpa using Nat.succ_lt_succ hj)
  have e : base + (j + 1) = base + 1 + j := by omega
  rw [e] at h2
  simpa using h2

/-- Dropping leading chunks drops the corresponding prefix of the
concatenated bytes. -/
theorem flatten_drop_sum (cs : List (List Byte)) :
    ∀ j, (cs.drop j).flatten =
      cs.flatten.drop (((cs.map List.length).take j).sum) := by
  induction cs with
  | nil => intro j; simp
  | cons c rest ih =>
    intro j
    cases j with
    | zero => simp
    | succ j =>
      simp only [List.drop_succ_cons, List.map_cons, List.take_succ_cons,
        List.sum_cons, List.flatten_cons]
      rw [ih j, List.drop_append_eq_append_drop,
        List.drop_eq_nil_of_le (Nat.le_add_right c.length _)]
      simp

/-- Reading an uploaded split file from any in-range offset reconstructs
exactly the suffix of the original bytes, across chunk seams. -/
theorem streamFileContent_uploaded_split (C : Nat) (data : List Byte)
    (st : TStore) (off : Nat) (hC : 0 < C) (hN : C < data.length)
    (hoff : off < data.length) :
    (streamFileContent ⟨st.msgs ++ chunksOf C data⟩
        ⟨true, none, metasOf 0 st.msgs.length (chunksOf C data)⟩ off).flatten =
      data.drop off := by
  have hflat : (chunksOf C data).flatten = data := chunksOf_flatten C hC data
  have hcs_ne : chunksOf C data ≠ [] := by
    intro hnil
    rw [hnil] at hflat
    simp at hflat
    subst hflat
    simp at hN
  have hsizes : (metasOf 0 st.msgs.length (chunksOf C data)).map
      (fun m => m.size) = (chunksOf C data).map List.length :=
    metasOf_map_size (chunksOf C data) 0 st.msgs.length
  have hsum : ((chunksOf C data).map List.length).sum = data.length := by
    rw [← List.length_flatten, hflat]
  have hne : metasOf 0 st.msgs.length (chunksOf C data) ≠ [] := by
    intro hnil
    have h1 := metasOf_length (chunksOf C data) 0 st.msgs.length
    rw [hnil] at h1
    exact hcs_ne (List.eq_nil_of_length_eq_zero h1.symm)
  have hred : streamFileContent ⟨st.msgs ++ chunksOf C data⟩
      ⟨true, none, metasOf 0 st.msgs.length (chunksOf C data)⟩ off =
      streamSplitChunks ⟨st.msgs ++ chunksOf C data⟩
        (sortChunks (metasOf 0 st.msgs.length (chunksOf C data))) off := rfl
  rw [hred, sortChunks_metasOf]
  simp only [streamSplitChunks]
  rw [if_neg hne, hsizes]
  obtain ⟨j, hj1, hj2, hj3, hj4⟩ :=
    resolveOffset_spec ((chunksOf C data).map List.length) off
      (by rw [hsum]; exact hoff)
  have hj2a : (resolveOffset ((chunksOf C data).map List.length) off).1 = j := by
    rw [hj2]
  have hj2b : (resolveOffset ((chunksOf C data).map List.length) off).2 =
      off - (((chunksOf C data).map List.length).take j).sum := by
    rw [hj2]
  rw [hj2a, hj2b]
  have hjlen : j < (chunksOf C data).length := by
    simpa using hj1
  rw [metasOf_drop (chunksOf C data) j 0 st.msgs.length]
  simp only [Nat.zero_add]
  rcases hd : (chunksOf C data).drop j with _ | ⟨c0, rest⟩
  · have : (chunksOf C data).length ≤ j := by
      have := congrArg List.length hd
      simp at this
      omega
    omega
  · have hget0 : (chunksOf C data)[j]? = some c0 := by
      have h1 := List.getElem?_drop (chunksOf C data) j 0
      rw [hd] at h1
      simpa using h1.symm
    have hc0len : ((chunksOf C data).map List.length).getD j 0 = c0.length := by
      rw [List.getD_eq_getElem?_getD, List.getElem?_map, hget0]
      simp
    have hstore : ∀ jj, jj < (c0 :: rest).length →
        getMessage ⟨st.msgs ++ chunksOf C data⟩ (st.msgs.length + j + jj) =
          (c0 :: rest)[jj]? := by
      intro jj hjj
      have e : st.msgs.length + j + jj = st.msgs.length + (j + jj) := by omega
      rw [e, getMessage_append]
      have h1 := List.getElem?_drop (chunksOf C data) j jj
      rw [hd] at h1
      exact h1.symm
    rw [streamChunks_metasOf_cons c0 rest _ (st.msgs.length + j) j _ hstore]
    have hdrop : (c0 :: rest).flatten =
        data.drop (((chunksOf C data).map List.length).take j).sum := by
      rw [← hd, flatten_drop_sum, hflat]
    have hdle : off - (((chunksOf C data).map List.length).take j).sum ≤ c0.length := by
      omega
    rw [List.flatten_cons, ← List.drop_append_of_le_length hdle,
      ← List.flatten_cons, hdrop, List.drop_drop]
    congr 1
    omega

/-- Reading an uploaded small (unsplit) file yields one buffer: the
stored payload from the requested offset. -/
theorem streamFileContent_uploaded_single (data : List Byte) (st : TStore)
    (off : Nat) :
    streamFileContent ⟨st.msgs ++ [data]⟩
      ⟨false, some st.msgs.length, []⟩ off = [data.drop off] := by
  have h := getMessage_append st.msgs [data] 0
  simp only [Nat.add_zero] at h
  simp at h
  simp [streamFileContent, streamSingle, h]

/-- Round trip of the storage layer: a fully successful upload followed
by a read at `off` yields buffers that concatenate to the original bytes
from `off` on (for any in-range offset; any offset at all for a file
that fits in one message). -/
theorem streamUploaded_flatten (C : Nat) (data : List Byte) (st : TStore)
    (off : Nat) (hC : 0 < C) (h : off < data.length ∨ data.length ≤ C) :
    ∃ st2 fd, uploadLargeFile noFail C data st = (st2, .ok fd) ∧
      (streamFileContent st2 fd off).flatten = data.drop off := by
  rcases le_or_lt data.length C with hle | hgt
  · refine ⟨_, _, uploadLargeFile_ok_small C data st hle, ?_⟩
    rw [streamFileContent_uploaded_single]
    simp
  · have hoff : off < data.length := by
      rcases h with h | h
      · exact h
      · omega
    exact ⟨_, _, uploadLargeFile_ok_split C data st hgt,
      streamFileContent_uploaded_split C data st off hC hgt hoff⟩

/-! ### The range-limiting generator -/

/-- The generator passes through exactly the first
`content_length - bytes_sent` remaining bytes (for a non-negative
remaining budget), truncating the final buffer. -/
theorem rangeGo_flatten (bufs : List (List Byte)) :
    ∀ (L sent : Nat), sent ≤ L →
      (rangeGo (L : Int) sent bufs).flatten = bufs.flatten.take (L - sent) := by
  induction bufs with
  | nil => intro L sent h; simp [rangeGo]
  | cons b rest ih =>
    intro L sent h
    simp only [rangeGo]
    by_cases h1 : (L : Int) < (sent : Int) + b.length
    · rw [if_pos h1]
      have h2 : L - sent < b.length := by omega
      rw [List.flatten_cons]
      simp only [List.flatten_nil, List.append_nil]
      rw [pySliceTo, if_neg (by omega), List.flatten_cons]
      have h3 : ((L : Int) - (sent : Int)).toNat = L - sent := by omega
      rw [h3, List.take_append_of_le_length (by omega)]
    · rw [if_neg h1]
      by_cases h2 : (L : Int) ≤ (sent : Int) + b.length
      · rw [if_pos h2]
        have h3 : L - sent = b.length := by omega
        rw [h3, List.flatten_cons, List.flatten_nil, List.append_nil,
          List.flatten_cons, List.take_left]
      · rw [if_neg h2]
        have h3 : sent + b.length ≤ L := by omega
        rw [List.flatten_cons, List.flatten_cons, ih L (sent + b.length) h3,
          List.take_append_eq_append_take,
          List.take_of_length_le (show b.length ≤ L - sent by omega)]
        have e : L - sent - b.length = L - (sent + b.length) := by omega
        rw [e]

/-- The generator with a fresh byte counter and budget `L` yields exactly
the first `L` bytes available from the underlying stream. -/
theorem rangeStreamGen_flatten (bufs : List (List Byte)) (L : Nat) :
    (rangeStreamGen (L : Int) bufs).flatten = bufs.flatten.take L := by
  have h := rangeGo_flatten bufs L 0 (Nat.zero_le _)
  simpa [rangeStreamGen] using h

/-- The record indices are consecutive starting from the first index. -/
theorem metasOf_map_chunk_index (cs : List (List Byte)) :
    ∀ i base, (metasOf i base cs).map (fun m => m.chunk_index) =
      List.range' i cs.length := by
  induction cs with
  | nil => intro i base; simp [metasOf]
  | cons c rest ih =>
    intro i base
    simp only [metasOf, List.map_cons, List.length_cons]
    rw [ih (i + 1) (base + 1)]
    rfl

/-! ### Claims -/

/-- C1: Round-trip — for every source file and every positive chunk cap,
a fully successful `upload_large_file` followed by reading the full range
`[0, N-1]` through `stream_file_content` consumed by the range-limited
generator yields exactly the original `N` bytes in order (the generator
budget is `content_length = (N-1) - 0 + 1`). -/
theorem C1_roundtrip (data : List Byte) (C : Nat) (st : TStore)
    (hC : 0 < C) :
    ∃ st2 fd, uploadLargeFile noFail C data st = (st2, .ok fd) ∧
      (rangeStreamGen (((data.length : Int) - 1) - 0 + 1)
        (streamFileContent st2 fd 0)).flatten = data := by
  have hcase : 0 < data.length ∨ data.length ≤ C := by omega
  obtain ⟨st2, fd, hup, hstream⟩ := streamUploaded_flatten C data st 0 hC hcase
  refine ⟨st2, fd, hup, ?_⟩
  have e : ((data.length : Int) - 1) - 0 + 1 = ((data.length : Nat) : Int) := by
    omega
  rw [e, rangeStreamGen_flatten, hstream]
  simp

/-- C1 witness: a 5-byte file with cap 1 (so `N = 5C`) round-trips. -/
theorem C1_roundtrip_w :
    ∃ st2 fd, uploadLargeFile noFail 1 [21, 22, 23, 24, 25] ⟨[]⟩ =
        (st2, .ok fd) ∧
      (rangeStreamGen (((([21, 22, 23, 24, 25] : List Byte).length : Int) - 1)
          - 0 + 1)
        (streamFileContent st2 fd 0)).flatten = [21, 22, 23, 24, 25] :=
  C1_roundtrip [21, 22, 23, 24, 25] 1 ⟨[]⟩ (by decide)

/-- C7: Exact truncation — for every valid inclusive range over an
uploaded file, the bytes yielded by the range-limited generator total
exactly `end - start + 1`. -/
theorem C7_exact_truncation (data : List Byte) (C : Nat) (st : TStore)
    (s f : Nat) (hC : 0 < C) (hsf : s ≤ f) (hf : f < data.length) :
    ∃ st2 fd, uploadLargeFile noFail C data st = (st2, .ok fd) ∧
      ((rangeStreamGen ((f : Int) - (s : Int) + 1)
        (streamFileContent st2 fd s)).flatten).length = f - s + 1 := by
  obtain ⟨st2, fd, hup, hstream⟩ :=
    streamUploaded_flatten C data st s hC (Or.inl (by omega))
  refine ⟨st2, fd, hup, ?_⟩
  have e : (f : Int) - (s : Int) + 1 = ((f - s + 1 : Nat) : Int) := by omega
  rw [e, rangeStreamGen_flatten, hstream, List.length_take, List.length_drop]
  omega

/-- C7 witness: the one-byte range `start = end = 1` of a 3-byte file
split with cap 2 yields exactly 1 byte. -/
theorem C7_exact_truncation_w :
    ∃ st2 fd, uploadLargeFile noFail 2 [10, 20, 30] ⟨[]⟩ = (st2, .ok fd) ∧
      ((rangeStreamGen ((1 : Int) - (1 : Int) + 1)
        (streamFileContent st2 fd 1)).flatten).length = 1 - 1 + 1 :=
  C7_exact_truncation [10, 20, 30] 2 ⟨[]⟩ 1 1 (by decide) (by decide) (by decide)

/-- C8: Small-file path — a nonempty file of at most the cap produces the
single window `(0, N)` and an unsplit record with a single message id and
no chunk list. -/
theorem C8_small_file (data : List Byte) (C : Nat) (st : TStore)
    (h1 : 0 < data.length) (h2 : data.length ≤ C) :
    plan data.length C = [(0, data.length)] ∧
    uploadLargeFile noFail C data st =
      (⟨st.msgs ++ [data]⟩, .ok ⟨false, some st.msgs.length, []⟩) := by
  constructor
  · rw [plan, planWindows_step C _ 0 (by omega) (by omega), Nat.sub_zero,
      Nat.min_eq_right h2, Nat.zero_add,
      planWindows_stop C _ _ (Nat.le_refl _)]
  · exact uploadLargeFile_ok_small C data st h2

/-- C8 witness: 100 bytes under cap 1000 — one window `(0, 100)`, unsplit
manifest. -/
theorem C8_small_file_w :
    plan (List.range 100).length 1000 = [(0, (List.range 100).length)] ∧
    uploadLargeFile noFail 1000 (List.range 100) ⟨[]⟩ =
      (⟨[] ++ [List.range 100]⟩, .ok ⟨false, some 0, []⟩) :=
  C8_small_file (List.range 100) 1000 ⟨[]⟩ (by simp) (by simp)

/-- C9: Zero-size object — the plan of a zero-byte file is the empty
window sequence, and the upload stores it unsplit (the single-file branch
of `upload_large_file` handles it; there is no split record). -/
theorem C9_zero_size (C : Nat) (st : TStore) :
    plan 0 C = [] ∧
    uploadLargeFile noFail C [] st =
      (⟨st.msgs ++ [[]]⟩, .ok ⟨false, some st.msgs.length, []⟩) := by
  constructor
  · exact planWindows_stop C 0 0 (Nat.le_refl 0)
  · exact uploadLargeFile_ok_small C [] st (by simp)

/-- C2: Plan correctness — for every `total ≥ 0` and cap `C > 0` the
windows sum to `total`, are contiguous (each starts where the previous
ends, the first at 0) and of length at most `C`; for `total > C` there
are `ceil(total / C)` windows, all of size `C` except the last, which
holds `total mod C` (or `C` when the remainder is 0); and the split
manifest of an upload carries dense 0-based increasing `chunk_index`
values with every size positive, the sizes being exactly the planned
window lengths (hence covering `[0, total)` without gaps or overlaps). -/
theorem C2_plan_correctness (total C : Nat) (hC : 0 < C) :
    ((plan total C).map Prod.snd).sum = total ∧
    List.Chain' (fun a b => b.1 = a.1 + a.2) (plan total C) ∧
    (∀ w ∈ plan total C, w.2 ≤ C) ∧
    (∀ w rest, plan total C = w :: rest → w.1 = 0) ∧
    (C < total →
      (plan total C).length = (total + C - 1) / C ∧
      (∀ w ∈ (plan total C).dropLast, w.2 = C) ∧
      ((plan total C).getLast?).map Prod.snd =
        some (if total % C = 0 then C else total % C)) ∧
    (∀ (data : List Byte) (st : TStore), data.length = total →
      C < total →
      uploadLargeFile noFail C data st =
        (⟨st.msgs ++ chunksOf C data⟩,
          .ok ⟨true, none, metasOf 0 st.msgs.length (chunksOf C data)⟩) ∧
      (metasOf 0 st.msgs.length (chunksOf C data)).map
          (fun m => m.chunk_index) =
        List.range (chunksOf C data).length ∧
      (∀ m ∈ metasOf 0 st.msgs.length (chunksOf C data), 0 < m.size) ∧
      (metasOf 0 st.msgs.length (chunksOf C data)).map (fun m => m.size) =
        (plan total C).map Prod.snd) := by
  refine ⟨?_, ?_, ?_, ?_, ?_, ?_⟩
  · rw [plan, planWindows_sum C hC total 0]
    omega
  · exact planWindows_chain C total 0
  · exact planWindows_snd_le C total 0
  · exact fun w rest h => planWindows_head C total 0 w rest h
  · intro hCt
    refine ⟨?_, planWindows_dropLast C hC total 0, ?_⟩
    · have h := planWindows_length C hC total 0
      simpa using h
    · have h := planWindows_last C hC total 0 (by omega)
      simpa using h
  · intro data st hlen hCt
    subst hlen
    refine ⟨uploadLargeFile_ok_split C data st hCt, ?_, ?_, ?_⟩
    · rw [metasOf_map_chunk_index (chunksOf C data) 0 st.msgs.length,
        List.range_eq_range']
    · intro m hm
      have h1 : m.size ∈ (metasOf 0 st.msgs.length (chunksOf C data)).map
          (fun m => m.size) := List.mem_map_of_mem _ hm
      rw [metasOf_map_size] at h1
      obtain ⟨c, hc, hclen⟩ := List.mem_map.mp h1
      have h2 := chunksOf_ne_nil C hC data c hc
      rw [← hclen]
      exact List.length_pos.mpr h2
    · rw [metasOf_map_size]
      have h := chunksOf_map_length C hC data 0
      simpa [plan] using h

/-- C2 witness: `total = 7`, `C = 3` and the 7-byte file
`[0,1,2,3,4,5,6]`. -/
theorem C2_plan_correctness_w :
    ((plan 7 3).map Prod.snd).sum = 7 ∧
    List.Chain' (fun a b => b.1 = a.1 + a.2) (plan 7 3) ∧
    (∀ w ∈ plan 7 3, w.2 ≤ 3) ∧
    (∀ w rest, plan 7 3 = w :: rest → w.1 = 0) ∧
    ((plan 7 3).length = (7 + 3 - 1) / 3 ∧
      (∀ w ∈ (plan 7 3).dropLast, w.2 = 3) ∧
      ((plan 7 3).getLast?).map Prod.snd =
        some (if 7 % 3 = 0 then 3 else 7 % 3)) ∧
    (uploadLargeFile noFail 3 [0, 1, 2, 3, 4, 5, 6] ⟨[]⟩ =
        (⟨chunksOf 3 [0, 1, 2, 3, 4, 5, 6]⟩,
          .ok ⟨true, none, metasOf 0 0 (chunksOf 3 [0, 1, 2, 3, 4, 5, 6])⟩) ∧
      (metasOf 0 0 (chunksOf 3 [0, 1, 2, 3, 4, 5, 6])).map
          (fun m => m.chunk_index) =
        List.range (chunksOf 3 [0, 1, 2, 3, 4, 5, 6]).length ∧
      (∀ m ∈ metasOf 0 0 (chunksOf 3 [0, 1, 2, 3, 4, 5, 6]), 0 < m.size) ∧
      (metasOf 0 0 (chunksOf 3 [0, 1, 2, 3, 4, 5, 6])).map (fun m => m.size) =
        (plan 7 3).map Prod.snd) := by
  obtain ⟨h1, h2, h3, h4, h5, h6⟩ := C2_plan_correctness 7 3 (by decide)
  exact ⟨h1, h2, h3, h4, h5 (by decide),
    h6 [0, 1, 2, 3, 4, 5, 6] ⟨[]⟩ (by decide) (by decide)⟩

/-- C3: Range resolution — for an in-range offset over any chunk size
list, the resolution loop returns the position of the unique chunk whose
interval `[prefix_sum, prefix_sum + size)` contains the offset, together
with the intra-chunk distance; resolving `total - 1` over positive sizes
lands on the last chunk; and the concrete 2 GB + 0.5 GB scenario resolves
offset `2000000005` to chunk `1`, intra-offset `5`. -/
theorem C3_range_resolution :
    (∀ (sizes : List Nat) (off : Nat), off < sizes.sum →
      ∃ j, j < sizes.length ∧
        resolveOffset sizes off = (j, off - (sizes.take j).sum) ∧
        (sizes.take j).sum ≤ off ∧
        off < (sizes.take j).sum + sizes.getD j 0 ∧
        (∀ k, (sizes.take k).sum ≤ off →
          off < (sizes.take k).sum + sizes.getD k 0 → k = j)) ∧
    (∀ (sizes : List Nat), 0 < sizes.sum → (∀ s ∈ sizes, 0 < s) →
      (resolveOffset sizes (sizes.sum - 1)).1 = sizes.length - 1) ∧
    resolveOffset [2000000000, 500000000] 2000000005 = (1, 5) := by
  refine ⟨?_, ?_, ?_⟩
  · intro sizes off h
    obtain ⟨j, h1, h2, h3, h4⟩ := resolveOffset_spec sizes off h
    exact ⟨j, h1, h2, h3, h4,
      fun k hk1 hk2 => resolve_interval_unique sizes off k j hk1 hk2 h3 h4⟩
  · intro sizes hsum hpos
    obtain ⟨j, h1, h2, h3, h4⟩ :=
      resolveOffset_spec sizes (sizes.sum - 1) (by omega)
    have hfst : (resolveOffset sizes (sizes.sum - 1)).1 = j := by
      rw [h2]
    rw [hfst]
    have h5 : sizes.sum ≤ (sizes.take (j + 1)).sum := by
      rw [sum_take_succ_getD]
      omega
    have h6 := List.sum_take_add_sum_drop sizes (j + 1)
    have h7 : (sizes.drop (j + 1)).sum = 0 := by omega
    rcases hd : sizes.drop (j + 1) with _ | ⟨s0, rest⟩
    · have h9 : sizes.length ≤ j + 1 := by
        by_contra hcon
        have h10 : (sizes.drop (j + 1)).length = sizes.length - (j + 1) :=
          List.length_drop _ _
        rw [hd] at h10
        simp at h10
        omega
      omega
    · exfalso
      have hs0 : s0 ∈ sizes := by
        have hmem : s0 ∈ sizes.drop (j + 1) := by
          rw [hd]
          simp
        exact List.mem_of_mem_drop hmem
      have h11 := hpos s0 hs0
      rw [hd] at h7
      simp [List.sum_cons] at h7
      omega
  · rfl

/-- C3 witness: the concrete split `[2000000000, 500000000]` resolved at
offset `2000000005`. -/
theorem C3_range_resolution_w :
    resolveOffset [2000000000, 500000000] 2000000005 = (1, 5) ∧
    (∃ j, j < ([2000000000, 500000000] : List Nat).length ∧
      resolveOffset [2000000000, 500000000] 2000000005 =
        (j, 2000000005 - (([2000000000, 500000000] : List Nat).take j).sum) ∧
      (([2000000000, 500000000] : List Nat).take j).sum ≤ 2000000005 ∧
      2000000005 < (([2000000000, 500000000] : List Nat).take j).sum +
        ([2000000000, 500000000] : List Nat).getD j 0 ∧
      (∀ k, (([2000000000, 500000000] : List Nat).take k).sum ≤ 2000000005 →
        2000000005 < (([2000000000, 500000000] : List Nat).take k).sum +
          ([2000000000, 500000000] : List Nat).getD k 0 → k = j)) :=
  ⟨C3_range_resolution.2.2,
    C3_range_resolution.1 [2000000000, 500000000] 2000000005 (by decide)⟩

/-- C4 counterexample: the range `start = 5 > end = 3` over a stored
10-byte file is not rejected — the route answers with data (four bytes),
refuting that every invalid range fails with an error and yields no
bytes. -/
theorem C4_counterexample :
    streamTelegramMedia ⟨[[0, 1, 2, 3, 4, 5, 6, 7, 8, 9]]⟩
      ⟨false, some 0, []⟩ 10 5 3 = .ok [[5, 6, 7, 8]] := rfl

/-- C4 amended: the route rejects a range (416, no body) exactly when
`start ≥ file_size`; any range with `start < file_size` is served, also
when `start > end` or `end ≥ file_size`. -/
theorem C4_range_rejection_amended (st : TStore) (fd : FileData)
    (fileSize start fin : Nat) :
    (fileSize ≤ start →
      streamTelegramMedia st fd fileSize start fin = .error ()) ∧
    (start < fileSize →
      ∃ bufs, streamTelegramMedia st fd fileSize start fin = .ok bufs) := by
  constructor
  · intro h
    simp [streamTelegramMedia, h]
  · intro h
    refine ⟨rangeStreamGen ((fin : Int) - (start : Int) + 1)
        (streamFileContent st fd start), ?_⟩
    simp only [streamTelegramMedia]
    rw [if_neg (by omega)]

/-- C4 witness: a 2-byte file — `start = 5 ≥ 2` is rejected, while the
range `1-1` is served. -/
theorem C4_range_rejection_amended_w :
    (streamTelegramMedia ⟨[[0, 1]]⟩ ⟨false, some 0, []⟩ 2 5 9 = .error ()) ∧
    (∃ bufs, streamTelegramMedia ⟨[[0, 1]]⟩ ⟨false, some 0, []⟩ 2 1 1 =
      .ok bufs) :=
  ⟨(C4_range_rejection_amended ⟨[[0, 1]]⟩ ⟨false, some 0, []⟩ 2 5 9).1
      (by decide),
    (C4_range_rejection_amended ⟨[[0, 1]]⟩ ⟨false, some 0, []⟩ 2 1 1).2
      (by decide)⟩

/-- C5 counterexample: a split read whose middle chunk's message is
absent does not fail — the stream skips the missing chunk and carries on,
yielding gap-containing data (`[1,2,3]` then `[7,8,9]` of a declared
9-byte object) with no error signal of any kind. -/
theorem C5_counterexample :
    streamFileContent ⟨[[1, 2, 3], [7, 8, 9]]⟩
      ⟨true, none,
        [⟨0, 0, none, 3⟩, ⟨1, 5, none, 3⟩, ⟨2, 1, none, 3⟩]⟩ 0 =
      [[1, 2, 3], [7, 8, 9]] := rfl

/-- C5 amended: when a chunk's message is missing from the transport, the
streaming loop of `stream_file_content` skips that chunk (logging only)
and continues with the next one; no size check is performed and no
mismatch error exists. -/
theorem C5_missing_chunk_skipped (st : TStore) (c : ChunkMeta)
    (rest : List ChunkMeta) (blobOff : Nat)
    (h : getMessage st c.message_id = none) :
    streamChunks st (c :: rest) blobOff = streamChunks st rest blobOff := by
  simp [streamChunks, h]

/-- C5 witness: chunk with message id 7 absent from a 1-message chat is
skipped. -/
theorem C5_missing_chunk_skipped_w :
    streamChunks ⟨[[1, 2, 3]]⟩ [⟨1, 7, none, 3⟩, ⟨2, 0, none, 3⟩] 0 =
      streamChunks ⟨[[1, 2, 3]]⟩ [⟨2, 0, none, 3⟩] 0 :=
  C5_missing_chunk_skipped ⟨[[1, 2, 3]]⟩ ⟨1, 7, none, 3⟩ [⟨2, 0, none, 3⟩] 0
    rfl

/-- If the first failing send is the `k`-th chunk, the split loop
propagates that call's error unchanged. -/
theorem uploadSplitGo_error {ε : Type} (fail : Nat → Option ε) (e : ε) :
    ∀ (cs : List (List Byte)) (k : Nat) (st : TStore) (i : Nat),
      k < cs.length → fail (i + k) = some e →
      (∀ j, j < k → fail (i + j) = none) →
      (uploadSplitGo fail st i cs).2 = .error e := by
  intro cs
  induction cs with
  | nil =>
    intro k st i hk
    simp at hk
  | cons c rest ih =>
    intro k st i hk hfail hbefore
    cases k with
    | zero =>
      have h0 : fail i = some e := by simpa using hfail
      simp [uploadSplitGo, h0]
    | succ k =>
      have h0 : fail i = none := by
        have h1 := hbefore 0 (by omega)
        simpa using h1
      simp only [uploadSplitGo, h0, sendDocument]
      have ih2 := ih k ⟨st.msgs ++ [c]⟩ (i + 1) (by simpa using hk)
        (by rw [show i + 1 + k = i + (k + 1) by omega]; exact hfail)
        (fun j hj => by
          rw [show i + 1 + j = i + (j + 1) by omega]
          exact hbefore (j + 1) (by omega))
      rcases hres : uploadSplitGo fail ⟨st.msgs ++ [c]⟩ (i + 1) rest
        with ⟨st2, res⟩
      rw [hres] at ih2
      simp at ih2
      subst ih2
      rfl

/-- C6 counterexample: the failure index is not reported — an upload of
the same 6-byte file under cap 2 failing at chunk 0 and one failing at
chunk 2 both surface the identical bare error value, so the result cannot
carry the failing chunk's index. -/
theorem C6_counterexample :
    (uploadLargeFile (failAt 0) 2 [0, 1, 2, 3, 4, 5] ⟨[]⟩).2 = .error () ∧
    (uploadLargeFile (failAt 2) 2 [0, 1, 2, 3, 4, 5] ⟨[]⟩).2 = .error () ∧
    (uploadLargeFile (failAt 0) 2 [0, 1, 2, 3, 4, 5] ⟨[]⟩).2 =
      (uploadLargeFile (failAt 2) 2 [0, 1, 2, 3, 4, 5] ⟨[]⟩).2 := by
  have hch : chunksOf 2 [0, 1, 2, 3, 4, 5] = [[0, 1], [2, 3], [4, 5]] := by
    simp [chunksOf]
  refine ⟨?_, ?_, ?_⟩ <;>
    simp [uploadLargeFile, hch, uploadSplitGo, failAt, sendDocument]

/-- C6 amended: when some chunk send fails, the upload surfaces the
transport's error as-is (no structured chunk index), and the background
task publishes nothing: the database is left exactly as it was. -/
theorem C6_upload_failure_amended {ε : Type} (fail : Nat → Option ε)
    (C : Nat) (data : List Byte) (st : TStore) (db : List FileData)
    (e : ε) (k : Nat)
    (hk : k < (chunksOf C data).length)
    (hfail : fail k = some e)
    (hbefore : ∀ j, j < k → fail j = none)
    (hsplit : C < data.length) :
    (uploadLargeFile fail C data st).2 = .error e ∧
    (processUpload fail C db data st).1 = db := by
  have h1 : (uploadLargeFile fail C data st).2 = .error e := by
    simp only [uploadLargeFile, if_neg (by omega : ¬ data.length ≤ C)]
    have h2 := uploadSplitGo_error fail e (chunksOf C data) k st 0 hk
      (by simpa using hfail) (fun j hj => by simpa using hbefore j hj)
    rcases huse : uploadSplitGo fail st 0 (chunksOf C data) with ⟨st2, res⟩
    rw [huse] at h2
    simp at h2
    subst h2
    rfl
  refine ⟨h1, ?_⟩
  simp only [processUpload]
  rcases hu : uploadLargeFile fail C data st with ⟨st2, res⟩
  rw [hu] at h1
  simp at h1
  subst h1
  rfl

/-- C6 witness: failing the second chunk (index 1) of a 3-chunk upload
propagates the bare error and leaves the database empty. -/
theorem C6_upload_failure_amended_w :
    (uploadLargeFile (failAt 1) 2 [0, 1, 2, 3, 4, 5] ⟨[]⟩).2 = .error () ∧
    (processUpload (failAt 1) 2 [] [0, 1, 2, 3, 4, 5] ⟨[]⟩).1 = [] :=
  C6_upload_failure_amended (failAt 1) 2 [0, 1, 2, 3, 4, 5] ⟨[]⟩ [] () 1
    (by simp [chunksOf]) rfl
    (by
      intro j hj
      have h : j = 0 := by omega
      subst h
      rfl)
    (by decide)

/-- C10: Implicit error swallowing — every failure mode of
`stream_file_content` (missing `message_id`, message absent from the
chat, empty chunk list) is caught inside the generator, which yields the
single empty buffer `b""` and ends normally; a legitimate read of a
present zero-byte file produces the same `[b""]`, so the consumer cannot
tell a failed read from a normal end of stream. -/
theorem C10_error_swallowing (st : TStore) (off mid : Nat) :
    streamFileContent st ⟨false, none, []⟩ off = [[]] ∧
    (getMessage st mid = none →
      streamFileContent st ⟨false, some mid, []⟩ off = [[]]) ∧
    streamFileContent st ⟨true, none, []⟩ off = [[]] ∧
    (getMessage st mid = some [] →
      streamFileContent st ⟨false, some mid, []⟩ off = [[]]) := by
  refine ⟨rfl, ?_, rfl, ?_⟩
  · intro h
    simp [streamFileContent, streamSingle, h]
  · intro h
    simp [streamFileContent, streamSingle, h]

/-- C10 witness: over the 1-message chat holding one empty payload, the
missing-message read (id 5), the legitimate empty read (id 0), the
missing-`message_id` read and the empty-chunk-list read all return
`[b""]`. -/
theorem C10_error_swallowing_w :
    streamFileContent ⟨[[]]⟩ ⟨false, some 5, []⟩ 0 = [[]] ∧
    streamFileContent ⟨[[]]⟩ ⟨false, some 0, []⟩ 0 = [[]] ∧
    streamFileContent ⟨[[]]⟩ ⟨false, none, []⟩ 0 = [[]] ∧
    streamFileContent ⟨[[]]⟩ ⟨true, none, []⟩ 0 = [[]] :=
  ⟨(C10_error_swallowing ⟨[[]]⟩ 0 5).2.1 rfl,
    (C10_error_swallowing ⟨[[]]⟩ 0 0).2.2.2 rfl,
    (C10_error_swallowing ⟨[[]]⟩ 0 0).1,
    (C10_error_swallowing ⟨[[]]⟩ 0 0).2.2.1⟩

end Platsv
